import Mathlib

/-!
Verification development for `stars_manager.py` (github_stars_manager).

The Python source is shallowly embedded: dictionaries keyed by the identity
key `repo_full_name ++ "|" ++ starred_at` become association lists with
Python-dict semantics (assignment replaces the value in place when the key is
present, otherwise appends at the end); Python's stable `list.sort` becomes
`List.insertionSort` (which places an inserted element before the first
element it compares `≤` to, hence is stable); JSON values returned by the
external model are embedded as `PyObj` (nested JSON objects inside values are
not modeled, no claim depends on them); `json.loads` is an external library
call and is passed as an explicit function parameter returning `none` when
the library would raise.  File-system and network effects are made explicit:
the persisted store is passed in as the list of rows parsed from
`results_all.json`, and the paginated GitHub source is a list of page
responses (`Except` a non-200 status code), pages beyond the list being empty
(the real endpoint returns empty pages past the end of data).
-/

/-- Embedded Python/JSON value, for data coming from `json.loads` on the model
response.  Nested JSON objects inside values are not modeled. -/
inductive PyObj where
  | pyNone : PyObj
  | pyBool : Bool → PyObj
  | pyNum : Int → PyObj
  | pyStr : String → PyObj
  | pyList : List PyObj → PyObj

mutual

/-- Boolean equality on `PyObj` (nested induction, so `deriving` cannot). -/
def pyEq : PyObj → PyObj → Bool
  | .pyNone, .pyNone => true
  | .pyBool a, .pyBool b => a == b
  | .pyNum a, .pyNum b => a == b
  | .pyStr a, .pyStr b => a == b
  | .pyList xs, .pyList ys => pyEqList xs ys
  | _, _ => false

/-- Boolean equality on lists of `PyObj`. -/
def pyEqList : List PyObj → List PyObj → Bool
  | [], [] => true
  | x :: xs, y :: ys => pyEq x y && pyEqList xs ys
  | _, _ => false

end

mutual

theorem pyEq_eq : ∀ a b : PyObj, pyEq a b = true ↔ a = b
  | a, b => by
    cases a <;> cases b <;> simp only [pyEq] <;>
      try simp
    case pyList.pyList xs ys =>
      rw [pyEqList_eq xs ys]

theorem pyEqList_eq : ∀ xs ys : List PyObj, pyEqList xs ys = true ↔ xs = ys
  | xs, ys => by
    cases xs <;> cases ys <;> simp only [pyEqList] <;> try simp
    case cons.cons x xs y ys =>
      rw [pyEq_eq x y, pyEqList_eq xs ys]

end

instance : DecidableEq PyObj := fun a b =>
  decidable_of_iff (pyEq a b = true) (pyEq_eq a b)

/-- Python truthiness for `PyObj` (`if v:`). -/
def pyTruthy : PyObj → Bool
  | .pyNone => false
  | .pyBool b => b
  | .pyNum n => n != 0
  | .pyStr s => !s.isEmpty
  | .pyList xs => !xs.isEmpty

/-- Python truthiness of an optional string (`if not api_key:` is true for
`None` and for the empty string). -/
def pyTruthyStr : Option String → Bool
  | none => false
  | some s => !s.isEmpty

/-- A row of the merge store (`results_all.json`).  Rows written by the
program always carry these fields; `category` is always a string because it
comes out of `normalize_category`. -/
structure Row where
  repo_full_name : String
  owner : String
  html_url : Option String
  description : Option String
  topics : List String
  category : String
  tags : List PyObj
  summary : PyObj
  starred_at : String
  analyzed_at : String
  deriving DecidableEq

/-- Embeds `unique_key` (source line 599): `f"{row.get('repo_full_name')}|{row.get('starred_at')}"`. -/
def unique_key (row : Row) : String :=
  row.repo_full_name ++ "|" ++ row.starred_at

/-- A Python dict from identity key to row, as an insertion-ordered
association list.  All dicts built by the program have pairwise distinct
keys. -/
abbrev RowDict := List (String × Row)

/-- Python dict assignment `d[k] = v`: replace in place if the key is
present (keys are unique in every reachable dict, so replacing the first
occurrence is exact), otherwise append at the end. -/
def dictUpsert : RowDict → String → Row → RowDict
  | [], k, v => [(k, v)]
  | p :: rest, k, v => if p.1 = k then (k, v) :: rest else p :: dictUpsert rest k v

/-- The loop `for row in rows: all_rows[unique_key(row)] = row` shared by
`merge_with_new_rows` and `merge_json_files`. -/
def upsertRows (d : RowDict) (rows : List Row) : RowDict :=
  rows.foldl (fun d row => dictUpsert d (unique_key row) row) d

/-- Python dict lookup (first — and by key uniqueness only — entry). -/
def dlook : RowDict → String → Option Row
  | [], _ => none
  | p :: rest, k => if p.1 = k then some p.2 else dlook rest k

/-- Code-point comparison, `a < b` on Python characters. -/
def charLtB (a b : Char) : Bool := a.toNat < b.toNat

/-- Python's lexicographic `<=` on strings, by code point (structurally
recursive so that it evaluates inside the kernel). -/
def strLeB : List Char → List Char → Bool
  | [], _ => true
  | _ :: _, [] => false
  | a :: xs, b :: ys =>
    if charLtB a b then true
    else if charLtB b a then false
    else strLeB xs ys

theorem strLeB_refl (l : List Char) : strLeB l l = true := by
  induction l with
  | nil => rfl
  | cons a xs ih => simp [strLeB, charLtB, ih]

theorem strLeB_total (a b : List Char) : strLeB a b = true ∨ strLeB b a = true := by
  induction a generalizing b with
  | nil => exact Or.inl rfl
  | cons x xs ih =>
    cases b with
    | nil => exact Or.inr rfl
    | cons y ys =>
      by_cases hxy : charLtB x y = true
      · exact Or.inl (by simp [strLeB, hxy])
      · by_cases hyx : charLtB y x = true
        · exact Or.inr (by simp [strLeB, hyx])
        · rcases ih ys with h | h
          · exact Or.inl (by simp [strLeB, hxy, hyx, h])
          · exact Or.inr (by simp [strLeB, hxy, hyx, h])

theorem strLeB_trans (a b c : List Char) (h1 : strLeB a b = true)
    (h2 : strLeB b c = true) : strLeB a c = true := by
  induction a generalizing b c with
  | nil => rfl
  | cons x xs ih =>
    cases b with
    | nil => simp [strLeB] at h1
    | cons y ys =>
      cases c with
      | nil => simp [strLeB] at h2
      | cons z zs =>
        simp only [strLeB, charLtB, decide_eq_true_eq] at h1 h2 ⊢
        by_cases hxy : x.toNat < y.toNat <;> by_cases hyz : y.toNat < z.toNat <;>
          by_cases hyx : y.toNat < x.toNat <;> by_cases hzy : z.toNat < y.toNat <;>
          simp_all <;>
          first
            | omega
            | (have hxz : ¬x.toNat < z.toNat := by omega
               have hzx : ¬z.toNat < x.toNat := by omega
               simp_all
               exact Or.inr (ih ys zs h1 h2))

/-- Sort key of `rows.sort(key=lambda r: r.get("starred_at") or "")`;
`starred_at` is a string in every row, and `"" or ""` is `""`, so the key is
the field itself, compared as Python compares strings. -/
def rowLe (a b : Row) : Prop :=
  strLeB a.starred_at.data b.starred_at.data = true

instance : DecidableRel rowLe := fun _ _ =>
  inferInstanceAs (Decidable (_ = true))

instance : IsTotal Row rowLe := ⟨fun a b => strLeB_total a.starred_at.data b.starred_at.data⟩

instance : IsTrans Row rowLe := ⟨fun _ _ _ hab hbc => strLeB_trans _ _ _ hab hbc⟩

/-- Python's stable ascending sort by `starred_at`. -/
def sortRows (rows : List Row) : List Row := List.insertionSort rowLe rows

/-- A `str()`-like rendering of a `PyObj`, used by the writers.  (For non-string
tags Python's `";".join` would raise; no claim touches that corner.) -/
def pyShow : PyObj → String
  | .pyNone => "None"
  | .pyBool b => if b then "True" else "False"
  | .pyNum n => toString n
  | .pyStr s => s
  | .pyList _ => "[...]"

/-- One CSV record as written by `write_csv` (source lines 538–567): the
row's columns with `topics` and `tags` joined by `";"`.  Byte-level CSV
quoting is the `csv` library's business and is out of scope. -/
structure CsvRecord where
  repo_full_name : String
  owner : String
  html_url : Option String
  description : Option String
  topics : String
  category : String
  tags : String
  summary : PyObj
  starred_at : String
  analyzed_at : String
  deriving DecidableEq

/-- Embeds `write_csv` as a pure projection of the row sequence. -/
def write_csv (rows : List Row) : List CsvRecord :=
  rows.map (fun r =>
    { repo_full_name := r.repo_full_name
      owner := r.owner
      html_url := r.html_url
      description := r.description
      topics := String.intercalate ";" r.topics
      category := r.category
      tags := String.intercalate ";" (r.tags.map pyShow)
      summary := r.summary
      starred_at := r.starred_at
      analyzed_at := r.analyzed_at })

/-- One Markdown table line of `write_markdown` (source lines 584–592). -/
def markdownLine (r : Row) : String :=
  "| [" ++ r.repo_full_name ++ "](" ++ (r.html_url.getD "None") ++ ") | "
    ++ r.category ++ " | "
    ++ String.intercalate ", " (r.tags.map pyShow) ++ " | "
    ++ ((if pyTruthy r.summary then pyShow r.summary else "").replace "\n" " ") ++ " | "
    ++ r.starred_at ++ " |"

/-- Embeds `write_markdown` as a pure projection: header lines then one table line
per row, in row order. -/
def write_markdown (rows : List Row) : List String :=
  ["# GitHub Stars 分析结果", "", "| 仓库 | 类别 | 标签 | 摘要 | 加星时间 |",
   "|---|---|---|---|---|"] ++ rows.map markdownLine

/-- The three files written by one persist; `write_json` is full fidelity so
the JSON projection is the row sequence itself. -/
structure PersistedOutputs where
  jsonRows : List Row
  csvRecords : List CsvRecord
  mdLines : List String
  deriving DecidableEq

/-- The `all_rows` dict of `merge_with_new_rows` (source lines 667–679): the
existing merged rows loaded into a dict keyed by `unique_key`, then each new
row upserted in order. -/
def mergedDict (existing new_rows : List Row) : RowDict :=
  upsertRows (upsertRows [] existing) new_rows

/-- The persist step (source lines 683–685): write the JSON, CSV and
Markdown projections, all three from the same row sequence. -/
def persistOutputs (rows : List Row) : PersistedOutputs :=
  { jsonRows := rows, csvRecords := write_csv rows, mdLines := write_markdown rows }

/-- Embeds `merge_with_new_rows` (source lines 660–685): load the existing merged
rows into a dict keyed by `unique_key`, overwrite by key with each new row,
sort the values ascending by `starred_at` (stable), and write the three
projections from that single sorted sequence.  `existing` is the list parsed
from `results_all.json` (empty when the file is missing or unreadable). -/
def merge_with_new_rows (existing new_rows : List Row) : PersistedOutputs :=
  persistOutputs (sortRows ((mergedDict existing new_rows).map Prod.snd))

/-- The persisted store after a merge: the contents of `results_all.json`. -/
def mergeStore (existing new_rows : List Row) : List Row :=
  (merge_with_new_rows existing new_rows).jsonRows

/-- Last row of `rows` bearing key `k` — the value a Python dict holds at `k`
after upserting every row of `rows` in order. -/
def findLast (rows : List Row) (k : String) : Option Row :=
  match rows with
  | [] => none
  | r :: rest =>
    match findLast rest k with
    | some m => some m
    | none => if unique_key r = k then some r else none

/-- One raw element of a GitHub `/user/starred` page (star+json shape
`{ starred_at, repo: {...} }`); `full_name`/`starred_at` are `none` when the
field is missing (`.get` returns `None`), and empty strings are possible. -/
structure RawItem where
  full_name : Option String
  html_url : Option String
  description : Option String
  topics : List String
  starred_at : Option String
  deriving DecidableEq

/-- A fetched starred-repository record (the dict built at source
lines 137–146). -/
structure Item where
  repo_full_name : String
  owner : String
  html_url : Option String
  description : Option String
  topics : List String
  starred_at : String
  deriving DecidableEq

/-- Identity key computed during fetch (source line 133):
`f"{full_name}|{starred_at}"`. -/
def item_key (it : Item) : String :=
  it.repo_full_name ++ "|" ++ it.starred_at

/-- Lines 126–146: validate a raw page element (`if not full_name or not
starred_at: continue` — `None` and `""` are both falsy) and build the
item dict, deriving `owner` as `full_name.split("/")[0]` when a slash is
present (the characters before the first slash) and `""` otherwise. -/
def starredItemOfRaw (item : RawItem) : Option Item :=
  match item.full_name, item.starred_at with
  | some full_name, some starred_at =>
    if full_name.data.isEmpty || starred_at.data.isEmpty then none
    else some
      { repo_full_name := full_name
        owner := if full_name.data.contains '/' then
            String.mk (full_name.data.takeWhile (fun c => ¬c = '/'))
          else ""
        html_url := item.html_url
        description := item.description
        topics := item.topics
        starred_at := starred_at }
  | _, _ => none

/-- The inner `for item in batch` loop of `fetch_starred_repos_sorted_asc`:
skip invalid items and items whose key is in `processed_keys`, append
survivors, and break as soon as `needed_unprocessed` results are collected. -/
def processPage (needed_unprocessed : Nat) (processed_keys : List String) :
    List RawItem → List Item → List Item
  | [], results => results
  | item :: rest, results =>
    match starredItemOfRaw item with
    | none => processPage needed_unprocessed processed_keys rest results
    | some it =>
      if item_key it ∈ processed_keys then
        processPage needed_unprocessed processed_keys rest results
      else
        let results2 := results ++ [it]
        if needed_unprocessed ≤ results2.length then results2
        else processPage needed_unprocessed processed_keys rest results2

/-- The `while len(results) < needed_unprocessed` page loop (source
lines 109–151).  A page response is `.error status` for a non-200 response
(which the code turns into a raised `RuntimeError`) and `.ok batch`
otherwise; pages beyond the given list are empty, matching the real
endpoint, and an empty batch breaks the loop.  The inter-page `time.sleep`
is a pure delay and is not modeled. -/
def fetchGo (needed_unprocessed : Nat) (processed_keys : List String) :
    List (Except Nat (List RawItem)) → List Item → Except Nat (List Item)
  | pages, results =>
    if needed_unprocessed ≤ results.length then .ok results
    else
      match pages with
      | [] => .ok results
      | page :: rest =>
        match page with
        | .error status => .error status
        | .ok batch =>
          if batch.isEmpty then .ok results
          else fetchGo needed_unprocessed processed_keys rest
            (processPage needed_unprocessed processed_keys batch results)

/-- Embeds `fetch_starred_repos_sorted_asc` (source lines 85–153) with the paginated
source passed explicitly. -/
def fetch_starred_repos_sorted_asc (pages : List (Except Nat (List RawItem)))
    (needed_unprocessed : Nat) (processed_keys : List String) : Except Nat (List Item) :=
  fetchGo needed_unprocessed processed_keys pages []

/-- Python's `w in text` on strings: `w` occurs as a contiguous substring. -/
def containsSub (text w : List Char) : Bool :=
  match text with
  | [] => w.isEmpty
  | _ :: rest => w.isPrefixOf text || containsSub rest w

/-- The lowercase search text of `classify_category_by_keywords` (source
lines 364–370): full name, description and space-joined topics, space-joined
then lowercased; `str(x or "")` maps `None` to `""`.  Lowercasing is
`Char.toLower` on each character (the basic-latin range; Python's
`str.lower` additionally folds non-ASCII letters, which no built-in rule
keyword contains). -/
def searchText (repo : Item) : List Char :=
  (String.intercalate " "
    [repo.repo_full_name, repo.description.getD "",
      String.intercalate " " repo.topics]).data.map Char.toLower

/-- The `for cat, words in category_rules.items()` loop: return the first
category one of whose keywords occurs in the text. -/
def classifyGo (text : List Char) : List (String × List String) → Option String
  | [] => none
  | (cat, words) :: rest =>
    if words.any (fun w => containsSub text w.data) then some cat
    else classifyGo text rest

/-- Embeds `classify_category_by_keywords` (source lines 351–375).  A rule set is an
insertion-ordered dict, embedded as the list of its entries. -/
def classify_category_by_keywords (repo : Item)
    (category_rules : List (String × List String)) : Option String :=
  classifyGo (searchText repo) category_rules

/-- Tiers 2 and 3 of `normalize_category` (source lines 401–404):
`if mapped and mapped in allowed_categories: return mapped; return
default_category` — note the Python truthiness test `mapped`, which rejects
an empty-string category even when it is allowed. -/
def normalizeFallbackTier (repo : Item) (allowed_categories : List String)
    (category_rules : List (String × List String)) (default_category : String) : String :=
  match classify_category_by_keywords repo category_rules with
  | some mapped =>
    if mapped ≠ "" ∧ mapped ∈ allowed_categories then mapped else default_category
  | none => default_category

/-- Embeds `normalize_category` (source lines 378–404).  The candidate arrives from
parsed model JSON, so it can be any `PyObj`; Python's `candidate in
allowed_categories` compares with `==` against strings, so only a string
candidate can pass tier 1 (`None` and non-strings never do). -/
def normalize_category (candidate : PyObj) (repo : Item)
    (allowed_categories : List String) (category_rules : List (String × List String))
    (default_category : String) : String :=
  match candidate with
  | .pyStr c =>
    if c ∈ allowed_categories then c
    else normalizeFallbackTier repo allowed_categories category_rules default_category
  | _ => normalizeFallbackTier repo allowed_categories category_rules default_category

/-- Python `str.strip()`: drop leading and trailing whitespace. -/
def stripChars (cs : List Char) : List Char :=
  ((cs.dropWhile Char.isWhitespace).reverse.dropWhile Char.isWhitespace).reverse

/-- The text after the first newline, or `none` when there is no newline
(`text.find("\n") == -1`). -/
def dropAfterNL : List Char → Option (List Char)
  | [] => none
  | c :: rest => if c = '\n' then some rest else dropAfterNL rest

/-- The three-backtick fence delimiter. -/
def backtick3 : List Char := "```".data

/-- The opening-brace character `U+007B`. -/
def openBraceChar : Char := Char.ofNat 123

/-- The closing-brace character `U+007D`. -/
def closeBraceChar : Char := Char.ofNat 125

/-- Fence removal inside `parse_json_content` (source lines 418–426): drop
through the first newline if any, drop a trailing triple-backtick fence if
present, then strip. -/
def stripCodeFence (cs : List Char) : List Char :=
  let cs1 := match dropAfterNL cs with
    | some r => r
    | none => cs
  let cs2 := if backtick3.isSuffixOf cs1 then cs1.take (cs1.length - 3) else cs1
  stripChars cs2

/-- The text `parse_json_content` first attempts to parse: stripped content,
with a leading code fence removed. -/
def fencedText (c : String) : List Char :=
  let t0 := stripChars c.data
  if backtick3.isPrefixOf t0 then stripCodeFence t0 else t0

/-- Index of the first occurrence of a character (`str.find`), `none` for
`-1`. -/
def firstIdxOf (c : Char) : List Char → Option Nat
  | [] => none
  | x :: rest => if x = c then some 0 else (firstIdxOf c rest).map (· + 1)

/-- Index of the last occurrence of a character (`str.rfind`), `none` for
`-1`. -/
def lastIdxOf (c : Char) (cs : List Char) : Option Nat :=
  (firstIdxOf c cs.reverse).map (fun i => cs.length - 1 - i)

/-- The `text[start : end + 1]` slice between the first opening brace and the
last closing brace, provided both exist and `end > start` (source
lines 432–435). -/
def braceSlice (cs : List Char) : Option (List Char) :=
  match firstIdxOf openBraceChar cs, lastIdxOf closeBraceChar cs with
  | some s, some e => if s < e then some ((cs.drop s).take (e + 1 - s)) else none
  | _, _ => none

/-- Embeds `parse_json_content` (source lines 407–440).  `loads` is the external
`json.loads`, returning `none` where the library raises; responses that
parse to a non-object JSON value are outside the modeled domain (the caller
would crash on them, and no claim touches that corner). -/
def parse_json_content (loads : String → Option (List (String × PyObj)))
    (content : Option String) : List (String × PyObj) :=
  match content with
  | none => []
  | some c =>
    if c.isEmpty then []
    else
      let text := fencedText c
      match loads (String.mk text) with
      | some d => d
      | none =>
        match braceSlice text with
        | some candidate =>
          match loads (String.mk candidate) with
          | some d => d
          | none => []
        | none => []

/-- Python's `parsed.get(k)`: the value at `k`, `pyNone` when absent. -/
def pyGet (d : List (String × PyObj)) (k : String) : PyObj :=
  ((d.find? (fun p => p.1 = k)).map Prod.snd).getD PyObj.pyNone

/-- The result dict of `analyze_with_zhipu`. -/
structure AnalysisResult where
  category : PyObj
  tags : List PyObj
  summary : PyObj
  deriving DecidableEq

/-- Embeds `analyze_with_zhipu` (source lines 443–510).  The remote chat call —
client construction, prompt (which is where the source's `repo`, `model` and
`allowed_categories` parameters are used) and completion — is an external
collaborator; its outcome is the explicit `remote` argument: `.error e` when
anything in the `try` block raises (with `e` the exception text) and
`.ok content` for a successful call returning `message.content`. -/
def analyze_with_zhipu (api_key : Option String)
    (loads : String → Option (List (String × PyObj)))
    (remote : Except String (Option String)) : AnalysisResult :=
  if !pyTruthyStr api_key then
    { category := .pyStr "Uncategorized", tags := [],
      summary := .pyStr "API_KEY 未设置，跳过分析。" }
  else
    match remote with
    | .error e =>
      { category := .pyStr "Uncategorized", tags := [],
        summary := .pyStr ("ZHIPU 调用异常: " ++ e) }
    | .ok content =>
      let parsed := parse_json_content loads content
      let category :=
        let v := pyGet parsed "category"
        if pyTruthy v then v else .pyStr "Uncategorized"
      let tags0 :=
        let v := pyGet parsed "tags"
        if pyTruthy v then v else .pyList []
      let tags1 := match tags0 with
        | .pyStr s => PyObj.pyList [.pyStr s]
        | t => t
      let tags : List PyObj := match tags1 with
        | .pyList xs => xs
        | _ => []
      let summary :=
        let v := pyGet parsed "summary"
        if pyTruthy v then v else .pyStr ""
      { category := category, tags := tags, summary := summary }

/-- Outcome of one `main()` invocation: the contents of `results_all.json`
after the run, the batch of rows built by the analysis loop, and the status
code of the `RuntimeError` when the fetch aborted the run. -/
structure RunResult where
  store : List Row
  analyzed : List Row
  aborted : Option Nat
  deriving DecidableEq

/-- The row literal built in `main`'s loop (source lines 814–820):
`{**repo, "category": ..., "tags": ..., "summary": ..., "analyzed_at": now_iso}`. -/
def buildRow (repo : Item) (category : String) (tags : List PyObj)
    (summary : PyObj) (analyzed_at : String) : Row :=
  { repo_full_name := repo.repo_full_name
    owner := repo.owner
    html_url := repo.html_url
    description := repo.description
    topics := repo.topics
    category := category
    tags := tags
    summary := summary
    starred_at := repo.starred_at
    analyzed_at := analyzed_at }

/-- The work of `main` after configuration is resolved (source
lines 768–826): read `processed_keys` from the existing merged file, fetch
the next batch, analyze and normalize each item with the single timestamp
`now_iso` captured before the loop, then merge into `results_all.*`.  A
fetch error propagates as an uncaught `RuntimeError`, reaching no merge, so
the persisted store stays `existing`.  (The legacy shard-merge branch taken
when the batch is empty *and* no merged file exists is not modeled; with a
loaded store the empty branch returns keeping the store.)  `existing` is the
parsed content of `results_all.json`, `[]` when missing or unreadable. -/
def mainRun (pages : List (Except Nat (List RawItem))) (existing : List Row)
    (api_key : Option String) (loads : String → Option (List (String × PyObj)))
    (remote : Item → Except String (Option String))
    (allowed_categories : List String) (category_rules : List (String × List String))
    (default_category : String) (batch_size : Nat) (now_iso : String) : RunResult :=
  let processed_keys := existing.map unique_key
  match fetch_starred_repos_sorted_asc pages batch_size processed_keys with
  | .error status => { store := existing, analyzed := [], aborted := some status }
  | .ok to_process =>
    if to_process.isEmpty then { store := existing, analyzed := [], aborted := none }
    else
      let analyzed_rows := to_process.map (fun repo =>
        let analysis := analyze_with_zhipu api_key loads (remote repo)
        let normalized_cat := normalize_category analysis.category repo
          allowed_categories category_rules default_category
        buildRow repo normalized_cat analysis.tags analysis.summary now_iso)
      { store := mergeStore existing analyzed_rows
        analyzed := analyzed_rows
        aborted := none }

/-- First-some choice, for describing lookups after a fold of upserts. -/
def orElseO (a b : Option Row) : Option Row :=
  match a with
  | some m => some m
  | none => b

/-- The association list `[(unique_key r, r) | r ∈ rows]`: what loading a
stored row list into a fresh dict produces when its keys are distinct. -/
def keyGraph (rows : List Row) : RowDict := rows.map (fun r => (unique_key r, r))

/-- Every entry of the dict stores a row at its own identity key. -/
def Keyed (d : RowDict) : Prop := ∀ p ∈ d, p.1 = unique_key p.2

/-- A non-error page response. -/
def pageOk : Except Nat (List RawItem) → Bool
  | .ok _ => true
  | .error _ => false

/-- Modelled from the spec's words (C5): the first category in rule order
any of whose keywords occurs as a substring of the single lowercase search
text. -/
def classifyByKeywordsSpec (repo : Item)
    (category_rules : List (String × List String)) : Option String :=
  (category_rules.find?
    (fun p => p.2.any (fun w => containsSub (searchText repo) w.data))).map Prod.fst

/-- A repository whose search text is just `"x"`, for the C2 counterexample. -/
def repoEmptyCat : Item :=
  { repo_full_name := "x", owner := "", html_url := none, description := none,
    topics := [], starred_at := "2024-01-01T00:00:00Z" }

/-- Every parsing attempt fails for the given content: the (fence-stripped)
direct parse raises, and so does the first-brace-to-last-brace slice parse
whenever that slice exists. -/
def allParsesFail (loads : String → Option (List (String × PyObj)))
    (content : Option String) : Prop :=
  ∀ c, content = some c → ¬c.isEmpty = true →
    loads (String.mk (fencedText c)) = none
    ∧ ∀ sl, braceSlice (fencedText c) = some sl → loads (String.mk sl) = none

/-- A valid raw page element. -/
def rawSample : RawItem :=
  { full_name := some "a/x", html_url := some "https://e/a/x", description := none,
    topics := [], starred_at := some "2024-01-01T00:00:00Z" }

/-- The item `starredItemOfRaw` builds from `rawSample`. -/
def itemSample : Item :=
  { repo_full_name := "a/x", owner := "a", html_url := some "https://e/a/x",
    description := none, topics := [], starred_at := "2024-01-01T00:00:00Z" }

/-- A sample analyzed row with key `"a/x|2024-01-01T00:00:00Z"`. -/
def rowSample : Row :=
  { repo_full_name := "a/x", owner := "a", html_url := some "https://e/a/x",
    description := none, topics := [], category := "开发工具", tags := [],
    summary := .pyStr "s", starred_at := "2024-01-01T00:00:00Z",
    analyzed_at := "2024-05-01T00:00:00Z" }

/-- A second sample row with a different identity key. -/
def rowSample2 : Row :=
  { rowSample with repo_full_name := "b/y", starred_at := "2024-01-02T00:00:00Z" }

/-- The row `mainRun` builds for `itemSample` without a credential. -/
def rowFromRun : Row :=
  buildRow itemSample "开发工具" [] (.pyStr "API_KEY 未设置，跳过分析。")
    "2024-05-01T00:00:00Z"

/-! ### Lemmas and claim theorems -/

theorem dictUpsert_keys (d : RowDict) (k : String) (v : Row) :
    (dictUpsert d k v).map Prod.fst =
      if k ∈ d.map Prod.fst then d.map Prod.fst else d.map Prod.fst ++ [k] := by
  induction d with
  | nil => simp [dictUpsert]
  | cons p rest ih =>
    by_cases h : p.1 = k
    · simp [dictUpsert, h]
    · have hne : ¬k = p.1 := fun he => h he.symm
      simp only [dictUpsert, if_neg h, List.map_cons, ih, List.mem_cons]
      by_cases hk : k ∈ rest.map Prod.fst
      · simp [hk, hne]
      · simp [hk, hne]

theorem dictUpsert_of_not_mem (d : RowDict) (k : String) (v : Row)
    (h : k ∉ d.map Prod.fst) : dictUpsert d k v = d ++ [(k, v)] := by
  induction d with
  | nil => simp [dictUpsert]
  | cons p rest ih =>
    simp only [List.map_cons, List.mem_cons] at h
    push_neg at h
    simp only [dictUpsert, if_neg (Ne.symm h.1), List.cons_append]
    rw [ih h.2]

theorem dlook_dictUpsert (d : RowDict) (k k' : String) (v : Row) :
    dlook (dictUpsert d k v) k' = if k = k' then some v else dlook d k' := by
  induction d with
  | nil => simp [dictUpsert, dlook]
  | cons p rest ih =>
    by_cases hpk : p.1 = k
    · by_cases hkk : k = k'
      · simp [dictUpsert, dlook, hpk, hkk]
      · have hpk' : ¬p.1 = k' := by rw [hpk]; exact hkk
        simp [dictUpsert, dlook, hpk, hkk, hpk']
    · by_cases hpk' : p.1 = k'
      · have hkk : ¬k = k' := fun he => hpk (hpk'.trans he.symm)
        simp only [dictUpsert, if_neg hpk, dlook, if_pos hpk', if_neg hkk]
      · simp [dictUpsert, dlook, hpk, hpk', ih]

theorem dlook_eq_none_iff (d : RowDict) (k : String) :
    dlook d k = none ↔ k ∉ d.map Prod.fst := by
  induction d with
  | nil => simp [dlook]
  | cons p rest ih =>
    by_cases h : p.1 = k
    · simp [dlook, h]
    · simp only [dlook, if_neg h, List.map_cons, List.mem_cons, ih]
      constructor
      · intro hn
        rintro (h1 | h2)
        · exact h h1.symm
        · exact hn h2
      · intro hn h2
        exact hn (Or.inr h2)

theorem dlook_mem (d : RowDict) (k : String) (v : Row) (h : dlook d k = some v) :
    (k, v) ∈ d := by
  induction d with
  | nil => simp [dlook] at h
  | cons p rest ih =>
    by_cases hp : p.1 = k
    · simp only [dlook, if_pos hp] at h
      cases h
      have hpe : (k, p.2) = p := by
        cases p
        simp_all
      rw [hpe]
      exact List.mem_cons_self _ _
    · simp only [dlook, if_neg hp] at h
      exact List.mem_cons_of_mem _ (ih h)

theorem mem_dlook (d : RowDict) (k : String) (v : Row)
    (hnd : (d.map Prod.fst).Nodup) (h : (k, v) ∈ d) : dlook d k = some v := by
  induction d with
  | nil => simp at h
  | cons p rest ih =>
    simp only [List.map_cons, List.nodup_cons] at hnd
    rcases List.mem_cons.mp h with h1 | h1
    · cases h1
      simp [dlook]
    · have hk : p.1 ≠ k := by
        intro he
        exact hnd.1 (he ▸ (List.mem_map.mpr ⟨(k, v), h1, rfl⟩))
      simp only [dlook, if_neg hk]
      exact ih hnd.2 h1

theorem dictUpsert_nodup (d : RowDict) (k : String) (v : Row)
    (h : (d.map Prod.fst).Nodup) : ((dictUpsert d k v).map Prod.fst).Nodup := by
  rw [dictUpsert_keys]
  by_cases hk : k ∈ d.map Prod.fst
  · simpa [hk] using h
  · rw [if_neg hk, List.nodup_append]
    refine ⟨h, List.nodup_singleton k, ?_⟩
    intro a ha hb
    rw [List.mem_singleton] at hb
    subst hb
    exact hk ha

theorem dict_ext (d1 d2 : RowDict) (hnd : (d1.map Prod.fst).Nodup)
    (hkeys : d1.map Prod.fst = d2.map Prod.fst)
    (hlook : ∀ k, dlook d1 k = dlook d2 k) : d1 = d2 := by
  induction d1 generalizing d2 with
  | nil =>
    cases d2 with
    | nil => rfl
    | cons q rest2 => simp at hkeys
  | cons p rest ih =>
    cases d2 with
    | nil => simp at hkeys
    | cons q rest2 =>
      simp only [List.map_cons, List.cons.injEq] at hkeys
      simp only [List.map_cons, List.nodup_cons] at hnd
      have hq1 : q.1 = p.1 := hkeys.1.symm
      have hval := hlook p.1
      have h1 : dlook (p :: rest) p.1 = some p.2 := by simp [dlook]
      have h2 : dlook (q :: rest2) p.1 = some q.2 := by simp [dlook, hq1]
      rw [h1, h2] at hval
      have hv : p.2 = q.2 := by injection hval
      have hpq : p = q := by
        cases p
        cases q
        simp_all
      cases hpq
      have htail : ∀ k, dlook rest k = dlook rest2 k := by
        intro k
        by_cases hk : p.1 = k
        · subst hk
          rw [(dlook_eq_none_iff rest p.1).mpr hnd.1,
            (dlook_eq_none_iff rest2 p.1).mpr (hkeys.2 ▸ hnd.1)]
        · have hlk := hlook k
          simpa only [dlook, if_neg hk] using hlk
      rw [ih rest2 hnd.2 hkeys.2 htail]

theorem upsertRows_cons (d : RowDict) (r : Row) (rows : List Row) :
    upsertRows d (r :: rows) = upsertRows (dictUpsert d (unique_key r) r) rows := rfl

theorem dlook_upsertRows (d : RowDict) (rows : List Row) (k : String) :
    dlook (upsertRows d rows) k = orElseO (findLast rows k) (dlook d k) := by
  induction rows generalizing d with
  | nil => simp [upsertRows, findLast, orElseO]
  | cons r rest ih =>
    rw [upsertRows_cons, ih]
    cases hfl : findLast rest k with
    | some m => simp [findLast, hfl, orElseO]
    | none =>
      simp only [findLast, hfl, orElseO, dlook_dictUpsert]
      by_cases hk : unique_key r = k
      · simp [hk]
      · simp [hk]

theorem findLast_eq_none_iff (rows : List Row) (k : String) :
    findLast rows k = none ↔ k ∉ rows.map unique_key := by
  induction rows with
  | nil => simp [findLast]
  | cons r rest ih =>
    cases hfl : findLast rest k with
    | some m =>
      have hk : k ∈ rest.map unique_key := by
        by_contra hc
        have hnone := ih.mpr hc
        rw [hfl] at hnone
        cases hnone
      simp only [findLast, hfl, List.map_cons, List.mem_cons]
      constructor
      · intro h
        exact Option.noConfusion h
      · intro h
        exact absurd (Or.inr hk) h
    | none =>
      have hk : k ∉ rest.map unique_key := ih.mp hfl
      simp only [findLast, hfl, List.map_cons, List.mem_cons]
      by_cases hr : unique_key r = k
      · simp [hr]
      · have hne : ¬k = unique_key r := fun he => hr he.symm
        simp [hr, hk, hne]

theorem findLast_mem (rows : List Row) (k : String) (m : Row)
    (h : findLast rows k = some m) : m ∈ rows ∧ unique_key m = k := by
  induction rows with
  | nil => simp [findLast] at h
  | cons r rest ih =>
    cases hfl : findLast rest k with
    | some m2 =>
      simp only [findLast, hfl] at h
      cases h
      obtain ⟨h1, h2⟩ := ih hfl
      exact ⟨List.mem_cons_of_mem _ h1, h2⟩
    | none =>
      simp only [findLast, hfl] at h
      by_cases hr : unique_key r = k
      · rw [if_pos hr] at h
        cases h
        exact ⟨List.mem_cons_self _ _, hr⟩
      · rw [if_neg hr] at h
        cases h

theorem upsertRows_append_graph (d : RowDict) (rows : List Row)
    (hnew : ∀ r ∈ rows, unique_key r ∉ d.map Prod.fst)
    (hnd : (rows.map unique_key).Nodup) :
    upsertRows d rows = d ++ keyGraph rows := by
  induction rows generalizing d with
  | nil => simp [upsertRows, keyGraph]
  | cons r rest ih =>
    simp only [List.map_cons, List.nodup_cons] at hnd
    have hx : ∀ r2 ∈ rest, unique_key r2 ∉ (d ++ [(unique_key r, r)]).map Prod.fst := by
      intro r2 hr2
      rw [List.map_append, List.mem_append]
      rintro (hmem | hmem)
      · exact hnew r2 (List.mem_cons_of_mem _ hr2) hmem
      · simp only [List.map_cons, List.map_nil, List.mem_singleton] at hmem
        exact hnd.1 (List.mem_map.mpr ⟨r2, hr2, hmem⟩)
    rw [upsertRows_cons, dictUpsert_of_not_mem d _ _ (hnew r (List.mem_cons_self _ _)),
      ih (d ++ [(unique_key r, r)]) hx hnd.2]
    simp [keyGraph]

theorem upsertRows_nodup (d : RowDict) (rows : List Row)
    (h : (d.map Prod.fst).Nodup) : ((upsertRows d rows).map Prod.fst).Nodup := by
  induction rows generalizing d with
  | nil => exact h
  | cons r rest ih => exact ih _ (dictUpsert_nodup _ _ _ h)

theorem upsertRows_keys_eq_of_sub (d : RowDict) (rows : List Row)
    (h : ∀ r ∈ rows, unique_key r ∈ d.map Prod.fst) :
    (upsertRows d rows).map Prod.fst = d.map Prod.fst := by
  induction rows generalizing d with
  | nil => rfl
  | cons r rest ih =>
    have hk := h r (List.mem_cons_self _ _)
    have hrest : ∀ r2 ∈ rest, unique_key r2 ∈ (dictUpsert d (unique_key r) r).map Prod.fst := by
      intro r2 hr2
      rw [dictUpsert_keys, if_pos hk]
      exact h r2 (List.mem_cons_of_mem _ hr2)
    rw [upsertRows_cons, ih _ hrest, dictUpsert_keys, if_pos hk]

theorem dictUpsert_keyed (d : RowDict) (v : Row) (h : Keyed d) :
    Keyed (dictUpsert d (unique_key v) v) := by
  induction d with
  | nil =>
    intro p hp
    simp only [dictUpsert, List.mem_singleton] at hp
    subst hp
    rfl
  | cons q rest ih =>
    intro p hp
    by_cases hq : q.1 = unique_key v
    · simp only [dictUpsert, if_pos hq, List.mem_cons] at hp
      rcases hp with hp | hp
      · subst hp
        rfl
      · exact h p (List.mem_cons_of_mem _ hp)
    · simp only [dictUpsert, if_neg hq, List.mem_cons] at hp
      rcases hp with hp | hp
      · subst hp
        exact h p (List.mem_cons_self _ _)
      · exact ih (fun p2 hp2 => h p2 (List.mem_cons_of_mem _ hp2)) p hp

theorem upsertRows_keyed (d : RowDict) (rows : List Row) (h : Keyed d) :
    Keyed (upsertRows d rows) := by
  induction rows generalizing d with
  | nil => exact h
  | cons r rest ih => exact ih _ (dictUpsert_keyed _ _ h)

theorem dictUpsert_snd_mem (d : RowDict) (k : String) (v w : Row)
    (h : w ∈ (dictUpsert d k v).map Prod.snd) : w ∈ d.map Prod.snd ∨ w = v := by
  induction d with
  | nil =>
    simp only [dictUpsert, List.map_cons, List.map_nil, List.mem_singleton] at h
    exact Or.inr h
  | cons q rest ih =>
    by_cases hq : q.1 = k
    · simp only [dictUpsert, if_pos hq, List.map_cons, List.mem_cons] at h
      rcases h with h | h
      · exact Or.inr h
      · exact Or.inl (List.mem_cons_of_mem _ h)
    · simp only [dictUpsert, if_neg hq, List.map_cons, List.mem_cons] at h
      rcases h with h | h
      · exact Or.inl (by simp [h])
      · rcases ih h with h2 | h2
        · exact Or.inl (List.mem_cons_of_mem _ h2)
        · exact Or.inr h2

theorem upsertRows_snd_mem (d : RowDict) (rows : List Row) (v : Row)
    (h : v ∈ (upsertRows d rows).map Prod.snd) :
    v ∈ d.map Prod.snd ∨ v ∈ rows := by
  induction rows generalizing d with
  | nil => exact Or.inl h
  | cons r rest ih =>
    rw [upsertRows_cons] at h
    rcases ih _ h with h1 | h1
    · rcases dictUpsert_snd_mem _ _ _ _ h1 with h2 | h2
      · exact Or.inl h2
      · exact Or.inr (h2 ▸ List.mem_cons_self _ _)
    · exact Or.inr (List.mem_cons_of_mem _ h1)

theorem dlook_perm (d1 d2 : RowDict) (hnd : (d1.map Prod.fst).Nodup)
    (hperm : d1.Perm d2) (k : String) : dlook d1 k = dlook d2 k := by
  cases h1 : dlook d1 k with
  | some v =>
    have hm := dlook_mem d1 k v h1
    have hnd2 := ((hperm.map Prod.fst).nodup_iff).mp hnd
    rw [mem_dlook d2 k v hnd2 (hperm.mem_iff.mp hm)]
  | none =>
    have hk := (dlook_eq_none_iff d1 k).mp h1
    rw [Eq.comm, dlook_eq_none_iff]
    intro hmem
    exact hk ((hperm.map Prod.fst).mem_iff.mpr hmem)

theorem sortRows_perm (l : List Row) : (sortRows l).Perm l :=
  List.perm_insertionSort rowLe l

theorem sortRows_sorted (l : List Row) : List.Sorted rowLe (sortRows l) :=
  List.sorted_insertionSort rowLe l

theorem sortRows_of_sorted (l : List Row) (h : List.Sorted rowLe l) : sortRows l = l :=
  h.insertionSort_eq

theorem orderedInsert_filter_pos (a : Row) (l : List Row) (s : String)
    (ha : a.starred_at = s) :
    (List.orderedInsert rowLe a l).filter (fun r => decide (r.starred_at = s)) =
      a :: l.filter (fun r => decide (r.starred_at = s)) := by
  induction l with
  | nil => simp [List.orderedInsert, List.filter, ha]
  | cons b t ih =>
    by_cases hle : rowLe a b
    · simp only [List.orderedInsert, if_pos hle]
      simp [List.filter_cons, ha]
    · simp only [List.orderedInsert, if_neg hle]
      have hb : ¬b.starred_at = s := by
        intro hbs
        refine hle (show strLeB a.starred_at.data b.starred_at.data = true from ?_)
        rw [ha, hbs]
        exact strLeB_refl _
      simp [List.filter_cons, hb, ih]

theorem orderedInsert_filter_neg (a : Row) (l : List Row) (s : String)
    (ha : ¬a.starred_at = s) :
    (List.orderedInsert rowLe a l).filter (fun r => decide (r.starred_at = s)) =
      l.filter (fun r => decide (r.starred_at = s)) := by
  induction l with
  | nil => simp [List.orderedInsert, List.filter, ha]
  | cons b t ih =>
    by_cases hle : rowLe a b
    · simp only [List.orderedInsert, if_pos hle]
      simp [List.filter_cons, ha]
    · simp only [List.orderedInsert, if_neg hle]
      simp [List.filter_cons, ih]

/-- Stability of the embedded sort: the subsequence of rows with any fixed
`starred_at` value is untouched, i.e. ties keep their original relative
order. -/
theorem sortRows_filter (l : List Row) (s : String) :
    (sortRows l).filter (fun r => decide (r.starred_at = s)) =
      l.filter (fun r => decide (r.starred_at = s)) := by
  induction l with
  | nil => rfl
  | cons a t ih =>
    show (List.orderedInsert rowLe a (sortRows t)).filter _ = _
    by_cases ha : a.starred_at = s
    · rw [orderedInsert_filter_pos a _ s ha, ih]
      simp [List.filter_cons, ha]
    · rw [orderedInsert_filter_neg a _ s ha, ih]
      simp [List.filter_cons, ha]

theorem mergedDict_nodup (existing new_rows : List Row) :
    ((mergedDict existing new_rows).map Prod.fst).Nodup :=
  upsertRows_nodup _ _ (upsertRows_nodup _ _ (by simp))

theorem mergedDict_keyed (existing new_rows : List Row) :
    Keyed (mergedDict existing new_rows) :=
  upsertRows_keyed _ _ (upsertRows_keyed _ _ (fun p hp => absurd hp (List.not_mem_nil p)))

theorem keyed_map_key (d : RowDict) (h : Keyed d) :
    d.map (fun p => unique_key p.2) = d.map Prod.fst := by
  induction d with
  | nil => rfl
  | cons p rest ih =>
    simp only [List.map_cons]
    rw [← h p (List.mem_cons_self _ _), ih (fun q hq => h q (List.mem_cons_of_mem _ hq))]

theorem snd_map_key (d : RowDict) (h : Keyed d) :
    (d.map Prod.snd).map unique_key = d.map Prod.fst := by
  rw [List.map_map]
  exact keyed_map_key d h

theorem keyGraph_snd (rows : List Row) : (keyGraph rows).map Prod.snd = rows := by
  simp only [keyGraph, List.map_map]
  exact List.map_id'' (fun _ => rfl) rows

theorem keyGraph_keys (rows : List Row) :
    (keyGraph rows).map Prod.fst = rows.map unique_key := by
  simp [keyGraph, List.map_map]

theorem keyGraph_of_map (d : RowDict) (h : Keyed d) : keyGraph (d.map Prod.snd) = d := by
  induction d with
  | nil => rfl
  | cons p rest ih =>
    simp only [keyGraph, List.map_cons] at *
    rw [ih (fun q hq => h q (List.mem_cons_of_mem _ hq))]
    have hp := h p (List.mem_cons_self _ _)
    have : (unique_key p.2, p.2) = p := by
      cases p
      simp_all
    rw [this]

theorem dlook_mergedDict (existing new_rows : List Row) (k : String) :
    dlook (mergedDict existing new_rows) k =
      orElseO (findLast new_rows k) (dlook (upsertRows [] existing) k) :=
  dlook_upsertRows _ _ _

theorem mergeStore_def (existing new_rows : List Row) :
    mergeStore existing new_rows = sortRows ((mergedDict existing new_rows).map Prod.snd) := rfl

theorem mergeStore_sorted (existing new_rows : List Row) :
    List.Sorted rowLe (mergeStore existing new_rows) := by
  rw [mergeStore_def]
  exact sortRows_sorted _

theorem mergeStore_keys_perm (existing new_rows : List Row) :
    ((mergeStore existing new_rows).map unique_key).Perm
      ((mergedDict existing new_rows).map Prod.fst) := by
  have h := (sortRows_perm ((mergedDict existing new_rows).map Prod.snd)).map unique_key
  rw [snd_map_key _ (mergedDict_keyed existing new_rows)] at h
  rw [mergeStore_def]
  exact h

theorem mergeStore_nodup_keys (existing new_rows : List Row) :
    ((mergeStore existing new_rows).map unique_key).Nodup :=
  ((mergeStore_keys_perm existing new_rows).nodup_iff).mpr (mergedDict_nodup existing new_rows)

theorem keyGraph_mergeStore_perm (existing new_rows : List Row) :
    (keyGraph (mergeStore existing new_rows)).Perm (mergedDict existing new_rows) := by
  have h : (keyGraph (mergeStore existing new_rows)).Perm
      (keyGraph ((mergedDict existing new_rows).map Prod.snd)) := by
    rw [mergeStore_def]
    exact (sortRows_perm _).map _
  rwa [keyGraph_of_map _ (mergedDict_keyed existing new_rows)] at h

theorem dlook_mergedDict_some (existing new_rows : List Row) (k : String) (m : Row)
    (hfl : findLast new_rows k = some m) :
    dlook (mergedDict existing new_rows) k = some m := by
  rw [dlook_mergedDict, hfl]
  rfl

theorem new_key_mem_mergedDict (existing new_rows : List Row) (r : Row) (hr : r ∈ new_rows) :
    unique_key r ∈ (mergedDict existing new_rows).map Prod.fst := by
  cases hfl : findLast new_rows (unique_key r) with
  | none =>
    have hnot := (findLast_eq_none_iff new_rows (unique_key r)).mp hfl
    exact absurd (List.mem_map.mpr ⟨r, hr, rfl⟩) hnot
  | some m =>
    have hd := dlook_mergedDict_some existing new_rows _ m hfl
    exact List.mem_map.mpr ⟨(unique_key r, m), dlook_mem _ _ _ hd, rfl⟩

/-- C1: merging is idempotent — re-running `merge_with_new_rows` with the
same batch on the store it just produced yields exactly the same persisted
outputs (same rows, same order, all three files), and the persisted store
has no duplicate identity keys. -/
theorem merge_with_new_rows_idempotent (existing new_rows : List Row) :
    merge_with_new_rows (mergeStore existing new_rows) new_rows =
        merge_with_new_rows existing new_rows
    ∧ ((mergeStore existing new_rows).map unique_key).Nodup := by
  refine ⟨?_, mergeStore_nodup_keys existing new_rows⟩
  have hndR := mergeStore_nodup_keys existing new_rows
  have hG : upsertRows [] (mergeStore existing new_rows)
      = keyGraph (mergeStore existing new_rows) := by
    have h := upsertRows_append_graph [] (mergeStore existing new_rows) (by simp) hndR
    simpa using h
  have hndG : ((keyGraph (mergeStore existing new_rows)).map Prod.fst).Nodup := by
    rw [keyGraph_keys]
    exact hndR
  have hGperm := keyGraph_mergeStore_perm existing new_rows
  have hsub : ∀ r ∈ new_rows,
      unique_key r ∈ (keyGraph (mergeStore existing new_rows)).map Prod.fst := by
    intro r hr
    rw [keyGraph_keys]
    exact (mergeStore_keys_perm existing new_rows).mem_iff.mpr
      (new_key_mem_mergedDict existing new_rows r hr)
  have hkeysD2 := upsertRows_keys_eq_of_sub _ new_rows hsub
  have hndD2 := upsertRows_nodup _ new_rows hndG
  have hlookD2 : ∀ k, dlook (upsertRows (keyGraph (mergeStore existing new_rows)) new_rows) k
      = dlook (keyGraph (mergeStore existing new_rows)) k := by
    intro k
    rw [dlook_upsertRows]
    cases hfl : findLast new_rows k with
    | none => rfl
    | some m =>
      have hDk := dlook_mergedDict_some existing new_rows k m hfl
      have hGk : dlook (keyGraph (mergeStore existing new_rows)) k
          = dlook (mergedDict existing new_rows) k :=
        dlook_perm _ _ hndG hGperm k
      rw [hGk, hDk]
      rfl
  have hD2 : upsertRows (keyGraph (mergeStore existing new_rows)) new_rows
      = keyGraph (mergeStore existing new_rows) :=
    dict_ext _ _ hndD2 hkeysD2 hlookD2
  show persistOutputs
      (sortRows ((mergedDict (mergeStore existing new_rows) new_rows).map Prod.snd)) = _
  rw [show mergedDict (mergeStore existing new_rows) new_rows
      = upsertRows (upsertRows [] (mergeStore existing new_rows)) new_rows from rfl]
  rw [hG, hD2, keyGraph_snd, sortRows_of_sorted _ (mergeStore_sorted existing new_rows)]
  rfl

theorem mergeStore_mem_iff (existing new_rows : List Row) (r : Row) :
    r ∈ mergeStore existing new_rows ↔ r ∈ (mergedDict existing new_rows).map Prod.snd := by
  rw [mergeStore_def]
  exact (sortRows_perm _).mem_iff

/-- C9: the merge-upsert loses no records and touches only matched keys —
every existing record whose key matches no new row survives unchanged, every
key occurring in the new rows is represented in the result by exactly the
last new row bearing it, and nothing else enters the store. -/
theorem merge_frame_effect (existing new_rows : List Row)
    (hnd : (existing.map unique_key).Nodup) :
    (∀ r ∈ existing, unique_key r ∉ new_rows.map unique_key →
        r ∈ mergeStore existing new_rows)
    ∧ (∀ n ∈ new_rows, ∃ m, findLast new_rows (unique_key n) = some m
        ∧ m ∈ mergeStore existing new_rows
        ∧ ∀ r ∈ mergeStore existing new_rows, unique_key r = unique_key n → r = m)
    ∧ (∀ r ∈ mergeStore existing new_rows, r ∈ existing ∨ r ∈ new_rows) := by
  have hE : upsertRows [] existing = keyGraph existing := by
    have h := upsertRows_append_graph [] existing (by simp) hnd
    simpa using h
  have hndD := mergedDict_nodup existing new_rows
  have hkD := mergedDict_keyed existing new_rows
  refine ⟨?_, ?_, ?_⟩
  · intro r hr hknot
    have hndE : ((keyGraph existing).map Prod.fst).Nodup := by
      rw [keyGraph_keys]
      exact hnd
    have hEr : dlook (upsertRows [] existing) (unique_key r) = some r := by
      rw [hE]
      exact mem_dlook _ _ _ hndE (List.mem_map.mpr ⟨r, hr, rfl⟩)
    have hfl : findLast new_rows (unique_key r) = none :=
      (findLast_eq_none_iff _ _).mpr hknot
    have hDr : dlook (mergedDict existing new_rows) (unique_key r) = some r := by
      rw [dlook_mergedDict, hfl]
      exact hEr
    rw [mergeStore_mem_iff]
    exact List.mem_map.mpr ⟨(unique_key r, r), dlook_mem _ _ _ hDr, rfl⟩
  · intro n hn
    cases hfl : findLast new_rows (unique_key n) with
    | none =>
      have hnot := (findLast_eq_none_iff new_rows (unique_key n)).mp hfl
      exact absurd (List.mem_map.mpr ⟨n, hn, rfl⟩) hnot
    | some m =>
      have hDm := dlook_mergedDict_some existing new_rows _ m hfl
      refine ⟨m, rfl, ?_, ?_⟩
      · rw [mergeStore_mem_iff]
        exact List.mem_map.mpr ⟨(unique_key n, m), dlook_mem _ _ _ hDm, rfl⟩
      · intro r hr hkey
        rw [mergeStore_mem_iff] at hr
        obtain ⟨p, hpD, hp2⟩ := List.mem_map.mp hr
        have hp1 : p.1 = unique_key n := by
          rw [hkD p hpD, hp2, hkey]
        have hpr : (unique_key n, r) ∈ mergedDict existing new_rows := by
          have : p = (unique_key n, r) := by
            cases p
            simp_all
          rwa [this] at hpD
        have := mem_dlook _ _ _ hndD hpr
        rw [hDm] at this
        injection this with h
        exact h.symm
  · intro r hr
    rw [mergeStore_mem_iff] at hr
    rcases upsertRows_snd_mem _ _ _ hr with h1 | h1
    · rcases upsertRows_snd_mem _ _ _ h1 with h2 | h2
      · simp at h2
      · exact Or.inl h2
    · exact Or.inr h1

/-- C3: after every persist via `merge_with_new_rows`, the written sequence
is non-decreasing by `starred_at`, it is a stable sort of the merged dict's
values (a permutation in which rows with equal `starred_at` keep their
original relative order), and the CSV and Markdown files are rendered from
that same single sorted sequence (the JSON file being the sequence itself). -/
theorem merge_persist_sorted_stable_projections (existing new_rows : List Row) :
    List.Sorted rowLe (merge_with_new_rows existing new_rows).jsonRows
    ∧ (merge_with_new_rows existing new_rows).jsonRows.Perm
        ((mergedDict existing new_rows).map Prod.snd)
    ∧ (∀ s, (merge_with_new_rows existing new_rows).jsonRows.filter
          (fun r => decide (r.starred_at = s))
        = ((mergedDict existing new_rows).map Prod.snd).filter
            (fun r => decide (r.starred_at = s)))
    ∧ (merge_with_new_rows existing new_rows).csvRecords
        = write_csv (merge_with_new_rows existing new_rows).jsonRows
    ∧ (merge_with_new_rows existing new_rows).mdLines
        = write_markdown (merge_with_new_rows existing new_rows).jsonRows :=
  ⟨mergeStore_sorted existing new_rows, sortRows_perm _,
    fun s => sortRows_filter _ s, rfl, rfl⟩

theorem processPage_length (needed_unprocessed : Nat) (processed_keys : List String)
    (batch : List RawItem) (results : List Item)
    (h : results.length < needed_unprocessed) :
    (processPage needed_unprocessed processed_keys batch results).length
      ≤ needed_unprocessed := by
  induction batch generalizing results with
  | nil => exact Nat.le_of_lt h
  | cons item rest ih =>
    cases hraw : starredItemOfRaw item with
    | none =>
      simp only [processPage, hraw]
      exact ih results h
    | some it =>
      simp only [processPage, hraw]
      by_cases hk : item_key it ∈ processed_keys
      · rw [if_pos hk]
        exact ih results h
      · rw [if_neg hk]
        by_cases hlen : needed_unprocessed ≤ (results ++ [it]).length
        · rw [if_pos hlen]
          have hsucc : (results ++ [it]).length = results.length + 1 := by simp
          omega
        · rw [if_neg hlen]
          apply ih
          have hsucc : (results ++ [it]).length = results.length + 1 := by simp
          omega

theorem processPage_mem (needed_unprocessed : Nat) (processed_keys : List String)
    (batch : List RawItem) (results : List Item) :
    ∀ it ∈ processPage needed_unprocessed processed_keys batch results,
      it ∈ results ∨ item_key it ∉ processed_keys := by
  induction batch generalizing results with
  | nil =>
    intro it hit
    exact Or.inl hit
  | cons item rest ih =>
    intro it hit
    cases hraw : starredItemOfRaw item with
    | none =>
      simp only [processPage, hraw] at hit
      exact ih results it hit
    | some it2 =>
      simp only [processPage, hraw] at hit
      by_cases hk : item_key it2 ∈ processed_keys
      · rw [if_pos hk] at hit
        exact ih results it hit
      · rw [if_neg hk] at hit
        by_cases hlen : needed_unprocessed ≤ (results ++ [it2]).length
        · rw [if_pos hlen] at hit
          rcases List.mem_append.mp hit with h1 | h1
          · exact Or.inl h1
          · rw [List.mem_singleton] at h1
            exact Or.inr (h1 ▸ hk)
        · rw [if_neg hlen] at hit
          rcases ih (results ++ [it2]) it hit with h1 | h1
          · rcases List.mem_append.mp h1 with h2 | h2
            · exact Or.inl h2
            · rw [List.mem_singleton] at h2
              exact Or.inr (h2 ▸ hk)
          · exact Or.inr h1

theorem fetchGo_ok (needed_unprocessed : Nat) (processed_keys : List String)
    (pages : List (Except Nat (List RawItem))) (results l : List Item)
    (hinv : ∀ it ∈ results, item_key it ∉ processed_keys)
    (hlen : results.length ≤ needed_unprocessed)
    (h : fetchGo needed_unprocessed processed_keys pages results = .ok l) :
    l.length ≤ needed_unprocessed ∧ ∀ it ∈ l, item_key it ∉ processed_keys := by
  induction pages generalizing results with
  | nil =>
    simp only [fetchGo, ite_self] at h
    cases h
    exact ⟨hlen, hinv⟩
  | cons page rest ih =>
    by_cases hn : needed_unprocessed ≤ results.length
    · rw [show fetchGo needed_unprocessed processed_keys (page :: rest) results
          = .ok results by simp [fetchGo, hn]] at h
      cases h
      exact ⟨hlen, hinv⟩
    · cases page with
      | error status => simp [fetchGo, hn] at h
      | ok batch =>
        by_cases hb : batch.isEmpty
        · rw [show fetchGo needed_unprocessed processed_keys (Except.ok batch :: rest) results
              = .ok results by simp [fetchGo, hn, hb]] at h
          cases h
          exact ⟨hlen, hinv⟩
        · rw [show fetchGo needed_unprocessed processed_keys (Except.ok batch :: rest) results
              = fetchGo needed_unprocessed processed_keys rest
                  (processPage needed_unprocessed processed_keys batch results)
              by simp [fetchGo, hn, hb]] at h
          have hlt : results.length < needed_unprocessed := Nat.lt_of_not_le hn
          refine ih (processPage needed_unprocessed processed_keys batch results) ?_ ?_ h
          · intro it hit
            rcases processPage_mem _ _ _ _ it hit with h1 | h1
            · exact hinv it h1
            · exact h1
          · exact processPage_length _ _ _ _ hlt

theorem fetchGo_isOk (needed_unprocessed : Nat) (processed_keys : List String)
    (pages : List (Except Nat (List RawItem))) (results : List Item)
    (hok : ∀ p ∈ pages, pageOk p = true) :
    ∃ l, fetchGo needed_unprocessed processed_keys pages results = .ok l := by
  induction pages generalizing results with
  | nil => exact ⟨results, by simp [fetchGo, ite_self]⟩
  | cons page rest ih =>
    by_cases hn : needed_unprocessed ≤ results.length
    · exact ⟨results, by simp [fetchGo, hn]⟩
    · cases page with
      | error status =>
        have := hok _ (List.mem_cons_self _ _)
        simp [pageOk] at this
      | ok batch =>
        by_cases hb : batch.isEmpty
        · exact ⟨results, by simp [fetchGo, hn, hb]⟩
        · obtain ⟨l, hl⟩ := ih (processPage needed_unprocessed processed_keys batch results)
            (fun p hp => hok p (List.mem_cons_of_mem _ hp))
          exact ⟨l, by simp [fetchGo, hn, hb, hl]⟩

/-- C4: the fetch returns at most `needed_unprocessed` items, none of whose
identity keys are in `processed_keys`; and an error-free source never makes
it fail — in particular an empty first page (end of data) stops the fetch
early with an empty, error-free result. -/
theorem fetch_boundary (pages : List (Except Nat (List RawItem)))
    (needed_unprocessed : Nat) (processed_keys : List String) :
    (∀ l, fetch_starred_repos_sorted_asc pages needed_unprocessed processed_keys = .ok l →
        l.length ≤ needed_unprocessed ∧ ∀ it ∈ l, item_key it ∉ processed_keys)
    ∧ ((∀ p ∈ pages, pageOk p = true) →
        ∃ l, fetch_starred_repos_sorted_asc pages needed_unprocessed processed_keys = .ok l
          ∧ l.length ≤ needed_unprocessed)
    ∧ (∀ rest, 0 < needed_unprocessed →
        fetch_starred_repos_sorted_asc (Except.ok [] :: rest) needed_unprocessed
          processed_keys = .ok []) := by
  refine ⟨?_, ?_, ?_⟩
  · intro l h
    exact fetchGo_ok _ _ _ [] l (by simp) (by simp) h
  · intro hok
    obtain ⟨l, hl⟩ := fetchGo_isOk needed_unprocessed processed_keys pages [] hok
    obtain ⟨h1, _⟩ := fetchGo_ok _ _ _ [] l (by simp) (by simp) hl
    exact ⟨l, hl, h1⟩
  · intro rest hpos
    simp only [fetch_starred_repos_sorted_asc, fetchGo, List.length_nil, List.isEmpty_nil,
      if_true]
    rw [if_neg (by omega)]

/-- C6: a non-success page response makes the fetch raise, and the
uncaught error aborts the run before any merge — the persisted store is
exactly the prior store and no batch rows were produced. -/
theorem fetch_error_aborts_run
    (pages : List (Except Nat (List RawItem))) (existing : List Row)
    (api_key : Option String) (loads : String → Option (List (String × PyObj)))
    (remote : Item → Except String (Option String))
    (allowed_categories : List String) (category_rules : List (String × List String))
    (default_category : String) (batch_size : Nat) (now_iso : String) (status : Nat)
    (h : fetch_starred_repos_sorted_asc pages batch_size (existing.map unique_key)
      = .error status) :
    mainRun pages existing api_key loads remote allowed_categories category_rules
        default_category batch_size now_iso
      = { store := existing, analyzed := [], aborted := some status } := by
  simp only [mainRun, h]

/-- C10: every row built by the batch loop carries the one `now_iso`
timestamp captured before the first item is analyzed, so all rows of a run
share the identical `analyzed_at`. -/
theorem analyzed_at_uniform
    (pages : List (Except Nat (List RawItem))) (existing : List Row)
    (api_key : Option String) (loads : String → Option (List (String × PyObj)))
    (remote : Item → Except String (Option String))
    (allowed_categories : List String) (category_rules : List (String × List String))
    (default_category : String) (batch_size : Nat) (now_iso : String) :
    ∀ r ∈ (mainRun pages existing api_key loads remote allowed_categories category_rules
        default_category batch_size now_iso).analyzed, r.analyzed_at = now_iso := by
  intro r hr
  simp only [mainRun] at hr
  cases hfetch : fetch_starred_repos_sorted_asc pages batch_size (existing.map unique_key) with
  | error status =>
    rw [hfetch] at hr
    simp at hr
  | ok to_process =>
    rw [hfetch] at hr
    by_cases hemp : to_process.isEmpty
    · simp [hemp] at hr
    · simp only [hemp, Bool.false_eq_true, if_false] at hr
      simp only [List.mem_map] at hr
      obtain ⟨repo, hrepo, hre⟩ := hr
      rw [← hre]
      rfl

theorem isPrefixOf_eq_true_iff (w t : List Char) :
    w.isPrefixOf t = true ↔ ∃ s, t = w ++ s := by
  induction w generalizing t with
  | nil =>
    simp only [List.isPrefixOf, List.nil_append]
    exact ⟨fun _ => ⟨t, rfl⟩, fun _ => trivial⟩
  | cons a ws ih =>
    cases t with
    | nil => simp [List.isPrefixOf]
    | cons b ts =>
      simp only [List.isPrefixOf, Bool.and_eq_true, beq_iff_eq, ih, List.cons_append]
      constructor
      · rintro ⟨rfl, s, rfl⟩
        exact ⟨s, rfl⟩
      · rintro ⟨s, hs⟩
        injection hs with h1 h2
        exact ⟨h1.symm, s, h2⟩

/-- The test `containsSub t w` decides exactly whether `w` occurs contiguously inside
`t` (Python's `w in text`). -/
theorem containsSub_iff_substring (t w : List Char) :
    containsSub t w = true ↔ ∃ s1 s2, t = s1 ++ w ++ s2 := by
  induction t with
  | nil =>
    simp only [containsSub, List.isEmpty_iff]
    constructor
    · rintro rfl
      exact ⟨[], [], rfl⟩
    · rintro ⟨s1, s2, hs⟩
      obtain ⟨h12, _⟩ := List.append_eq_nil.mp hs.symm
      obtain ⟨_, hw⟩ := List.append_eq_nil.mp h12
      exact hw
  | cons c rest ih =>
    simp only [containsSub, Bool.or_eq_true, isPrefixOf_eq_true_iff, ih]
    constructor
    · rintro (⟨s, hs⟩ | ⟨s1, s2, hs⟩)
      · exact ⟨[], s, by simp [hs]⟩
      · exact ⟨c :: s1, s2, by simp [hs]⟩
    · rintro ⟨s1, s2, hs⟩
      cases s1 with
      | nil =>
        left
        exact ⟨s2, by simpa using hs⟩
      | cons d s1t =>
        right
        rw [List.cons_append, List.cons_append] at hs
        injection hs with h1 h2
        exact ⟨s1t, s2, h2⟩

/-- C5: the keyword classifier equals its specification — one lowercase
space-joined text, rules iterated in order, first category with any keyword
contained as a plain substring wins — and it returns `none` exactly when no
keyword of any category occurs in the text. -/
theorem classify_matches_spec (repo : Item)
    (category_rules : List (String × List String)) :
    classify_category_by_keywords repo category_rules
        = classifyByKeywordsSpec repo category_rules
    ∧ (classify_category_by_keywords repo category_rules = none ↔
        ∀ p ∈ category_rules, ∀ w ∈ p.2,
          ¬∃ s1 s2, searchText repo = s1 ++ w.data ++ s2) := by
  have heq : classify_category_by_keywords repo category_rules
      = classifyByKeywordsSpec repo category_rules := by
    unfold classify_category_by_keywords classifyByKeywordsSpec
    induction category_rules with
    | nil => rfl
    | cons p rest ih =>
      cases p with
      | mk cat words =>
        by_cases h : words.any (fun w => containsSub (searchText repo) w.data) = true
        · have hpred : (fun p : String × List String =>
              p.2.any fun w => containsSub (searchText repo) w.data) (cat, words) = true := h
          rw [classifyGo, if_pos h,
            @List.find?_cons_of_pos (String × List String)
              (fun p => p.2.any fun w => containsSub (searchText repo) w.data)
              (cat, words) rest hpred]
          rfl
        · have hpred : ¬(fun p : String × List String =>
              p.2.any fun w => containsSub (searchText repo) w.data) (cat, words) = true := h
          rw [classifyGo, if_neg h,
            @List.find?_cons_of_neg (String × List String)
              (fun p => p.2.any fun w => containsSub (searchText repo) w.data)
              (cat, words) rest hpred, ih]
  refine ⟨heq, ?_⟩
  rw [heq]
  unfold classifyByKeywordsSpec
  rw [Option.map_eq_none', List.find?_eq_none]
  constructor
  · intro h p hp w hw hinf
    exact h p hp (List.any_eq_true.mpr ⟨w, hw, (containsSub_iff_substring _ _).mpr hinf⟩)
  · intro h p hp hane
    obtain ⟨w, hw, hcs⟩ := List.any_eq_true.mp hane
    exact h p hp w hw ((containsSub_iff_substring _ _).mp hcs)

theorem normalizeFallbackTier_mem (repo : Item) (allowed_categories : List String)
    (category_rules : List (String × List String)) (default_category : String)
    (hdef : default_category ∈ allowed_categories) :
    normalizeFallbackTier repo allowed_categories category_rules default_category
      ∈ allowed_categories := by
  unfold normalizeFallbackTier
  cases classify_category_by_keywords repo category_rules with
  | none => exact hdef
  | some m =>
    show (if m ≠ "" ∧ m ∈ allowed_categories then m else default_category)
      ∈ allowed_categories
    split
    · next hm => exact hm.2
    · next => exact hdef

theorem normalizeFallbackTier_eq_match (repo : Item) (allowed_categories : List String)
    (category_rules : List (String × List String)) (default_category : String) (m : String)
    (h : classify_category_by_keywords repo category_rules = some m)
    (hne : m ≠ "") (hmem : m ∈ allowed_categories) :
    normalizeFallbackTier repo allowed_categories category_rules default_category = m := by
  unfold normalizeFallbackTier
  rw [h]
  show (if m ≠ "" ∧ m ∈ allowed_categories then m else default_category) = m
  split
  · rfl
  · next hcon => exact absurd ⟨hne, hmem⟩ hcon

theorem normalizeFallbackTier_eq_default (repo : Item) (allowed_categories : List String)
    (category_rules : List (String × List String)) (default_category : String)
    (hall : ∀ m, classify_category_by_keywords repo category_rules = some m →
      m = "" ∨ m ∉ allowed_categories) :
    normalizeFallbackTier repo allowed_categories category_rules default_category
      = default_category := by
  unfold normalizeFallbackTier
  cases hc : classify_category_by_keywords repo category_rules with
  | none => rfl
  | some m =>
    show (if m ≠ "" ∧ m ∈ allowed_categories then m else default_category)
      = default_category
    split
    · next hm =>
      rcases hall m hc with h | h
      · exact absurd h hm.1
      · exact absurd hm.2 h
    · next => rfl

/-- C2 counterexample: with rule set `{"": ["x"]}` (an empty-string category,
legal in a rules file), allowed categories `["", "开发工具"]`, default
`"开发工具"` (a member, so the precondition holds) and candidate `None`, the
keyword tier matches the allowed category `""`, so the claimed tier order
returns `""` — but the code's `if mapped and mapped in allowed_categories`
truthiness test rejects the empty string and returns the default instead. -/
theorem normalize_category_counterexample :
    classify_category_by_keywords repoEmptyCat [("", ["x"])] = some ""
    ∧ ("" : String) ∈ ["", "开发工具"]
    ∧ normalize_category .pyNone repoEmptyCat ["", "开发工具"] [("", ["x"])] "开发工具"
        = "开发工具"
    ∧ ("开发工具" : String) ≠ "" :=
  ⟨by decide, by decide, by decide, by decide⟩

/-- C2 (amended): for every candidate (any parsed JSON value), repository,
allowed list and rule set, `normalize_category` returns a member of the
allowed list provided the default category is itself a member; and the tier
order is: return the candidate if it is an allowed string, else the
keyword-rule match provided it is *truthy (non-empty)* and allowed, else the
default. -/
theorem normalize_category_fallback_validity (candidate : PyObj) (repo : Item)
    (allowed_categories : List String) (category_rules : List (String × List String))
    (default_category : String) (hdef : default_category ∈ allowed_categories) :
    normalize_category candidate repo allowed_categories category_rules default_category
      ∈ allowed_categories
    ∧ (∀ c, candidate = .pyStr c → c ∈ allowed_categories →
        normalize_category candidate repo allowed_categories category_rules
          default_category = c)
    ∧ ((∀ c, candidate = .pyStr c → c ∉ allowed_categories) →
        (∀ m, classify_category_by_keywords repo category_rules = some m →
          m ≠ "" → m ∈ allowed_categories →
          normalize_category candidate repo allowed_categories category_rules
            default_category = m)
        ∧ ((∀ m, classify_category_by_keywords repo category_rules = some m →
              m = "" ∨ m ∉ allowed_categories) →
            normalize_category candidate repo allowed_categories category_rules
              default_category = default_category)) := by
  have hmemT := normalizeFallbackTier_mem repo allowed_categories category_rules
    default_category hdef
  cases candidate with
  | pyStr c =>
    by_cases hc : c ∈ allowed_categories
    · refine ⟨?_, ?_, ?_⟩
      · simp only [normalize_category, if_pos hc]
        exact hc
      · intro c' heq hcm
        injection heq with h
        subst h
        simp [normalize_category, hc]
      · intro hnot
        exact absurd hc (hnot c rfl)
    · refine ⟨?_, ?_, ?_⟩
      · simp only [normalize_category, if_neg hc]
        exact hmemT
      · intro c' heq hcm
        injection heq with h
        subst h
        exact absurd hcm hc
      · intro hnot
        refine ⟨?_, ?_⟩
        · intro m hm hne hmm
          simp only [normalize_category, if_neg hc]
          exact normalizeFallbackTier_eq_match _ _ _ _ m hm hne hmm
        · intro hall
          simp only [normalize_category, if_neg hc]
          exact normalizeFallbackTier_eq_default _ _ _ _ hall
  | pyNone =>
    exact ⟨hmemT, fun c heq => PyObj.noConfusion heq,
      fun _ => ⟨fun m hm hne hmm => normalizeFallbackTier_eq_match _ _ _ _ m hm hne hmm,
        fun hall => normalizeFallbackTier_eq_default _ _ _ _ hall⟩⟩
  | pyBool b =>
    exact ⟨hmemT, fun c heq => PyObj.noConfusion heq,
      fun _ => ⟨fun m hm hne hmm => normalizeFallbackTier_eq_match _ _ _ _ m hm hne hmm,
        fun hall => normalizeFallbackTier_eq_default _ _ _ _ hall⟩⟩
  | pyNum n =>
    exact ⟨hmemT, fun c heq => PyObj.noConfusion heq,
      fun _ => ⟨fun m hm hne hmm => normalizeFallbackTier_eq_match _ _ _ _ m hm hne hmm,
        fun hall => normalizeFallbackTier_eq_default _ _ _ _ hall⟩⟩
  | pyList xs =>
    exact ⟨hmemT, fun c heq => PyObj.noConfusion heq,
      fun _ => ⟨fun m hm hne hmm => normalizeFallbackTier_eq_match _ _ _ _ m hm hne hmm,
        fun hall => normalizeFallbackTier_eq_default _ _ _ _ hall⟩⟩

/-- Witness for C2 (amended) at a concrete input: candidate `"nope"` is not
allowed and no keyword matches, so the result is the default, which is in
the allowed list. -/
theorem normalize_category_fallback_validity_witness :
    ("开发工具" : String) ∈ ["Web", "开发工具"]
    ∧ normalize_category (.pyStr "nope") repoEmptyCat ["Web", "开发工具"]
        [("Web", ["vue"])] "开发工具" ∈ ["Web", "开发工具"] :=
  ⟨by decide, (normalize_category_fallback_validity (.pyStr "nope") repoEmptyCat
    ["Web", "开发工具"] [("Web", ["vue"])] "开发工具" (by decide)).1⟩

/-- C7: the analysis adapter never aborts the batch — with a missing (or
empty) credential it returns the deterministic fallback record (category
`"Uncategorized"`, empty tags, explanatory summary), and when the remote
call raises it returns the same shape with the exception text embedded in
the summary. -/
theorem analyze_never_fatal (api_key : Option String)
    (loads : String → Option (List (String × PyObj)))
    (remote : Except String (Option String)) :
    (pyTruthyStr api_key = false →
      analyze_with_zhipu api_key loads remote
        = { category := .pyStr "Uncategorized", tags := [],
            summary := .pyStr "API_KEY 未设置，跳过分析。" })
    ∧ (∀ e, pyTruthyStr api_key = true → remote = .error e →
      analyze_with_zhipu api_key loads remote
        = { category := .pyStr "Uncategorized", tags := [],
            summary := .pyStr ("ZHIPU 调用异常: " ++ e) }) := by
  constructor
  · intro h
    simp [analyze_with_zhipu, h]
  · intro e hk hr
    subst hr
    simp [analyze_with_zhipu, hk]

/-- Witness for C7: both fallback shapes at concrete inputs. -/
theorem analyze_never_fatal_witness :
    analyze_with_zhipu none (fun _ => none) (.ok none)
      = { category := .pyStr "Uncategorized", tags := [],
          summary := .pyStr "API_KEY 未设置，跳过分析。" }
    ∧ analyze_with_zhipu (some "k") (fun _ => none) (.error "boom")
      = { category := .pyStr "Uncategorized", tags := [],
          summary := .pyStr ("ZHIPU 调用异常: " ++ "boom") } :=
  ⟨(analyze_never_fatal none (fun _ => none) (.ok none)).1 rfl,
   (analyze_never_fatal (some "k") (fun _ => none) (.error "boom")).2 "boom" rfl rfl⟩

theorem parse_json_content_eq_nil (loads : String → Option (List (String × PyObj)))
    (content : Option String) (h : allParsesFail loads content) :
    parse_json_content loads content = [] := by
  cases content with
  | none => rfl
  | some c =>
    by_cases hce : c.isEmpty = true
    · simp [parse_json_content, hce]
    · obtain ⟨h1, h2⟩ := h c rfl hce
      simp only [parse_json_content, if_neg hce, h1]
      cases hbs : braceSlice (fencedText c) with
      | none => simp [hbs]
      | some sl => simp [hbs, h2 sl hbs]

/-- C8 counterexample: credential present, remote call succeeds with content
`"not json"`, and every parse attempt fails (`loads` always raises); the
analysis result then has category `"Uncategorized"` — not an empty category
as the claim states (the code replaces a missing parsed category with its
base value `"Uncategorized"`, while tags and summary do degenerate to
empty). -/
theorem parse_fail_counterexample :
    analyze_with_zhipu (some "k") (fun _ => none) (.ok (some "not json"))
      = { category := .pyStr "Uncategorized", tags := [], summary := .pyStr "" }
    ∧ PyObj.pyStr "Uncategorized" ≠ .pyStr "" :=
  ⟨by decide, by decide⟩

/-- C8 (amended): when the remote call succeeds but the response content
fails every parsing attempt (direct parse, fence-stripped parse, and
first-brace-to-last-brace slice), the analysis result has empty tags and an
empty summary, and its category is the fallback string `"Uncategorized"`
(not empty). -/
theorem parse_fail_result (api_key : Option String)
    (loads : String → Option (List (String × PyObj))) (content : Option String)
    (hkey : pyTruthyStr api_key = true) (hfail : allParsesFail loads content) :
    analyze_with_zhipu api_key loads (.ok content)
      = { category := .pyStr "Uncategorized", tags := [], summary := .pyStr "" } := by
  have hp := parse_json_content_eq_nil loads content hfail
  simp [analyze_with_zhipu, hkey, hp, pyGet, pyTruthy, List.find?]

/-- Witness for C8 (amended) at a concrete input. -/
theorem parse_fail_result_witness :
    pyTruthyStr (some "k") = true
    ∧ analyze_with_zhipu (some "k") (fun _ => none) (.ok (some "hello"))
      = { category := .pyStr "Uncategorized", tags := [], summary := .pyStr "" } :=
  ⟨rfl, parse_fail_result (some "k") (fun _ => none) (some "hello") rfl
    (fun _ _ _ => ⟨rfl, fun _ _ => rfl⟩)⟩

/-- Witness for C4 at a concrete source: one good page, one survivor. -/
theorem fetch_boundary_witness :
    ([itemSample] : List Item).length ≤ 1
    ∧ (∀ it ∈ [itemSample], item_key it ∉ ["p|q"]) :=
  (fetch_boundary [Except.ok [rawSample]] 1 ["p|q"]).1 [itemSample] (by rfl)

/-- Witness for C6: a 500 response aborts the run and leaves the store as it
was. -/
theorem fetch_error_aborts_run_witness :
    mainRun [Except.error 500] [rowSample] none (fun _ => none)
        (fun _ => Except.error "x") [] [] "d" 1 "T"
      = { store := [rowSample], analyzed := [], aborted := some 500 } :=
  fetch_error_aborts_run [Except.error 500] [rowSample] none (fun _ => none)
    (fun _ => Except.error "x") [] [] "d" 1 "T" 500 (by rfl)

/-- Witness for C9 at a concrete store and batch. -/
theorem merge_frame_effect_witness :
    (([rowSample].map unique_key).Nodup)
    ∧ ((∀ r ∈ [rowSample], unique_key r ∉ [rowSample2].map unique_key →
          r ∈ mergeStore [rowSample] [rowSample2])
      ∧ (∀ n ∈ [rowSample2], ∃ m, findLast [rowSample2] (unique_key n) = some m
          ∧ m ∈ mergeStore [rowSample] [rowSample2]
          ∧ ∀ r ∈ mergeStore [rowSample] [rowSample2],
              unique_key r = unique_key n → r = m)
      ∧ (∀ r ∈ mergeStore [rowSample] [rowSample2],
          r ∈ [rowSample] ∨ r ∈ [rowSample2])) :=
  ⟨by decide, merge_frame_effect [rowSample] [rowSample2] (by decide)⟩

/-- Witness for C10: the one row of a concrete run carries the pre-loop
timestamp. -/
theorem analyzed_at_uniform_witness :
    rowFromRun.analyzed_at = "2024-05-01T00:00:00Z" :=
  analyzed_at_uniform [Except.ok [rawSample]] [] none (fun _ => none)
    (fun _ => Except.error "x") ["开发工具"] [] "开发工具" 1 "2024-05-01T00:00:00Z"
    rowFromRun (by decide)
